import Mathlib

/-!
Verification of the cooperative task scheduler of `src/t2.py`
(`CooperativeModel` with `Task` records and `WorkerAgent`s).

The scheduler state is embedded shallowly: Python `Task` objects become
`Coop.Task` records carrying the ids of their assigned workers, Python
`WorkerAgent`s become `Coop.Worker` records carrying the ids of the tasks in
their `current_tasks` list, and one call of `CooperativeModel.step` becomes
the pure function `Coop.step`, a composition of the four phases of the source
(staffing, reporting, duration update, cleanup).  The reporting phase only
prints and builds the set of active tasks; its observable effect on the state
is captured inside `updatePhase` via `activeB`.  Object identity of the
mutable Python records is modelled by ids, so the states of interest carry
distinct task ids and distinct worker ids (part of `InitOK` and `Inv`).
-/

namespace Coop

/-- A task record, after `Task.__init__` in src/t2.py: `id`, `duration`
(possibly decremented below its initial value), `resources`
(`resourcesRequired`), the list `assigned_agents` (here by worker id, in
append order), and the `completed` flag. -/
structure Task where
  id : Nat
  duration : Int
  resources : Nat
  assigned : List Nat
  completed : Bool
  deriving DecidableEq, Repr

/-- A worker, after `WorkerAgent.__init__`: stable id (`custom_id`), fixed
`capacity`, and the list `current_tasks` (here by task id, in append order).
The grid position and display colour are visualization-only and omitted. -/
structure Worker where
  wid : Nat
  capacity : Nat
  currentTasks : List Nat
  deriving DecidableEq, Repr

/-- The mutable scheduler state: `self.tasks` and `self.workers` of
`CooperativeModel`. -/
structure SchedState where
  tasks : List Task
  workers : List Worker
  deriving DecidableEq, Repr

/-- The pending filter of the staffing phase:
`not t.completed and len(t.assigned_agents) < t.resources`. -/
def pendingP (t : Task) : Bool :=
  !t.completed && decide (t.assigned.length < t.resources)

/-- `pending = [t for t in self.tasks if not t.completed and len(t.assigned_agents) < t.resources]`. -/
def pendingTasks (s : SchedState) : List Task :=
  s.tasks.filter pendingP

/-- The candidate filter of the staffing phase:
`len(a.current_tasks) < a.capacity and a not in task.assigned_agents`. -/
def eligibleP (t : Task) (w : Worker) : Bool :=
  decide (w.currentTasks.length < w.capacity) && !(t.assigned.contains w.wid)

/-- `candidates = [a for a in self.workers if ...]`, in roster order. -/
def candidatesFor (ws : List Worker) (t : Task) : List Worker :=
  ws.filter (eligibleP t)

/-- One iteration of the staffing loop body for a single task: if at least
`needed = resources - len(assigned)` candidates exist, the first `needed`
candidates in roster order are appended to the task's assigned list and the
task's id is appended to each chosen worker's `current_tasks`; otherwise
nothing changes. -/
def staffTask (ws : List Worker) (t : Task) : Task × List Worker :=
  let needed := t.resources - t.assigned.length
  let cs := candidatesFor ws t
  if needed ≤ cs.length then
    let chosenIds := (cs.take needed).map Worker.wid
    ({ t with assigned := t.assigned ++ chosenIds },
     ws.map fun w =>
       if chosenIds.contains w.wid then
         { w with currentTasks := w.currentTasks ++ [t.id] }
       else w)
  else (t, ws)

/-- The staffing loop over the task list.  The Python loop iterates over the
snapshot list `pending`; since no iteration mutates any other task's fields,
this is equivalent to walking `self.tasks` in order, staffing exactly the
tasks that satisfied the pending filter at snapshot time, and threading the
worker state through. -/
def staffAll : List Worker → List Task → List Task × List Worker
  | ws, [] => ([], ws)
  | ws, t :: ts =>
    if pendingP t then
      let p := staffTask ws t
      let q := staffAll p.2 ts
      (p.1 :: q.1, q.2)
    else
      let q := staffAll ws ts
      (t :: q.1, q.2)

/-- Phase 1 of `CooperativeModel.step`. -/
def staffingPhase (s : SchedState) : SchedState :=
  let p := staffAll s.workers s.tasks
  { tasks := p.1, workers := p.2 }

/-- Membership of a task in `active_tasks_this_step`, the set built in the
reporting phase: the task appears in some worker's `current_tasks`. -/
def activeB (ws : List Worker) (t : Task) : Bool :=
  ws.any fun w => w.currentTasks.contains t.id

/-- The per-task body of the update phase:
`task.duration -= 1; if task.duration <= 0: task.completed = True`. -/
def advanceTask (t : Task) : Task :=
  let d := t.duration - 1
  { t with duration := d, completed := if d ≤ 0 then true else t.completed }

/-- Phases 2 and 3 of `CooperativeModel.step`: each member of the (identity-
deduplicated) active set is advanced exactly once; printing has no state
effect. -/
def updatePhase (s : SchedState) : SchedState :=
  { s with tasks := s.tasks.map fun t => if activeB s.workers t then advanceTask t else t }

/-- Whether the task with id `tid` is completed, resolving the id against the
task list the way a Python reference resolves against the unique object. -/
def isCompletedId (tasks : List Task) (tid : Nat) : Bool :=
  match tasks.find? (fun t => t.id == tid) with
  | some t => t.completed
  | none => false

/-- Phase 4 of `CooperativeModel.step`:
`agent.current_tasks = [t for t in agent.current_tasks if not t.completed]`.
Note it filters only the workers' lists; `task.assigned_agents` is untouched. -/
def cleanupPhase (s : SchedState) : SchedState :=
  { s with workers := s.workers.map fun w =>
      { w with currentTasks := w.currentTasks.filter fun tid => !isCompletedId s.tasks tid } }

/-- One call of `CooperativeModel.step` (the step counter and console output
carry no scheduler state). -/
def step (s : SchedState) : SchedState :=
  cleanupPhase (updatePhase (staffingPhase s))

/-- `n` consecutive steps. -/
def stepN : Nat → SchedState → SchedState
  | 0, s => s
  | n + 1, s => stepN n (step s)

/-- The states produced by `CooperativeModel.__init__` for any draw of the
random choices (`resources ∈ {1,2,3}`, `duration ∈ [5,20]`, ids `0..n-1`
ascending, empty assignment lists), generalized over the roster configuration
exactly as the spec's `initialize(taskCount, resourceDistribution,
durationRange, workerConfigs)` interface allows. -/
structure InitOK (s : SchedState) : Prop where
  idsSorted : (s.tasks.map Task.id).Pairwise (fun a b => a < b)
  freshTask : ∀ t ∈ s.tasks,
    t.assigned = [] ∧ t.completed = false ∧ 5 ≤ t.duration ∧ t.duration ≤ 20 ∧
    1 ≤ t.resources ∧ t.resources ≤ 3
  widsNodup : (s.workers.map Worker.wid).Nodup
  freshWorker : ∀ w ∈ s.workers, w.currentTasks = [] ∧ 1 ≤ w.capacity

/-- The states reachable by running `step` from an initial state. -/
inductive Reachable : SchedState → Prop where
  | init : ∀ s, InitOK s → Reachable s
  | next : ∀ s, Reachable s → Reachable (step s)

/-- Pointwise effect of the staffing phase on a worker: identity and capacity
are unchanged and `current_tasks` only grows, by ids of tasks of the processed
list. -/
def WStep (ts : List Task) (w w' : Worker) : Prop :=
  w'.wid = w.wid ∧ w'.capacity = w.capacity ∧
  ∃ ext, w'.currentTasks = w.currentTasks ++ ext ∧ ∀ x ∈ ext, x ∈ ts.map Task.id

/-- Pointwise effect of the staffing phase on a task: everything except the
assigned list is unchanged, the assigned list only grows, and a task that was
not pending at the start of the phase is untouched. -/
def TStep (t t' : Task) : Prop :=
  t'.id = t.id ∧ t'.duration = t.duration ∧ t'.resources = t.resources ∧
  t'.completed = t.completed ∧ (∃ ext, t'.assigned = t.assigned ++ ext) ∧
  (pendingP t = false → t' = t)

/-- Everything that holds of the scheduler state at every boundary between
steps: capacity bounds, all-or-nothing staffing, symmetry of the
task-worker assignment relation on non-completed tasks, sign facts about
durations, and the bookkeeping facts (distinct ids, roster-order assigned
lists) that make the id-based embedding faithful to Python object identity. -/
structure Inv (s : SchedState) : Prop where
  idsSorted : (s.tasks.map Task.id).Pairwise (fun a b => a < b)
  wNodup : (s.workers.map Worker.wid).Nodup
  cap : ∀ w ∈ s.workers, w.currentTasks.length ≤ w.capacity
  cNodup : ∀ w ∈ s.workers, w.currentTasks.Nodup
  cSub : ∀ w ∈ s.workers, ∀ tid ∈ w.currentTasks, tid ∈ s.tasks.map Task.id
  aon : ∀ t ∈ s.tasks, t.assigned.length = 0 ∨ t.assigned.length = t.resources
  aSub : ∀ t ∈ s.tasks, t.assigned.Sublist (s.workers.map Worker.wid)
  sym1 : ∀ w ∈ s.workers, ∀ t ∈ s.tasks,
    t.id ∈ w.currentTasks → w.wid ∈ t.assigned ∧ t.completed = false
  sym2 : ∀ w ∈ s.workers, ∀ t ∈ s.tasks,
    w.wid ∈ t.assigned → t.completed = false → t.id ∈ w.currentTasks
  dur : ∀ t ∈ s.tasks, (t.completed = true → t.duration = 0) ∧
    (t.completed = false → 1 ≤ t.duration)
  res : ∀ t ∈ s.tasks, 1 ≤ t.resources

/-- Modelled from the spec: the Task-Registry contract (§4.1) names a
`CapacityViolation` error for `recordAssignment`; src/t2.py contains no such
function or error class — its staffing phase (lines 58-68) inlines the commit
without error machinery.  -/
inductive RegistryError where
  | capacityViolation
  deriving DecidableEq, Repr

/-- Modelled from the spec: `recordAssignment(task, workers)` appends the
workers to `task.assignedWorkers` and the task to each worker's
`currentTasks`, failing with `CapacityViolation` if any worker's
`currentTasks` would exceed `capacity` or a worker is already present in
`task.assignedWorkers`.  Absent from src/t2.py, where the staffing phase
inlines the success path. -/
def recordAssignment (ws : List Worker) (t : Task) (chosen : List Nat) :
    Except RegistryError (Task × List Worker) :=
  if ws.any (fun w => chosen.contains w.wid && decide (w.capacity ≤ w.currentTasks.length)) ||
      chosen.any (fun a => t.assigned.contains a) then
    .error .capacityViolation
  else
    .ok ({ t with assigned := t.assigned ++ chosen },
      ws.map fun w =>
        if chosen.contains w.wid then
          { w with currentTasks := w.currentTasks ++ [t.id] }
        else w)

/-- The end-to-end example configuration of spec §8: tasks id0 (duration 5,
resources 1), id1 (duration 6, resources 2), id2 (duration 5, resources 1);
roster A (capacity 2), B (capacity 1), C (capacity 2), encoded as worker ids
0, 1, 2 in roster order. -/
def exampleState : SchedState :=
  { tasks := [⟨0, 5, 1, [], false⟩, ⟨1, 6, 2, [], false⟩, ⟨2, 5, 1, [], false⟩],
    workers := [⟨0, 2, []⟩, ⟨1, 1, []⟩, ⟨2, 2, []⟩] }

/-- A one-task, one-worker configuration used to exhibit the cleanup phase's
behaviour on a completed task's assigned list. -/
def soloState : SchedState :=
  { tasks := [⟨0, 5, 1, [], false⟩], workers := [⟨0, 1, []⟩] }

/-! ### Generic list helpers -/

theorem forall₂_mem_right {α β : Type} {R : α → β → Prop} {l₁ : List α} {l₂ : List β}
    (h : List.Forall₂ R l₁ l₂) : ∀ b ∈ l₂, ∃ a ∈ l₁, R a b := by
  induction h with
  | nil => intro b hb; cases hb
  | cons hr _ ih =>
    intro b hb
    rcases List.mem_cons.1 hb with rfl | hb
    · exact ⟨_, List.mem_cons_self _ _, hr⟩
    · rcases ih b hb with ⟨a, ha, hab⟩
      exact ⟨a, List.mem_cons_of_mem _ ha, hab⟩

theorem forall₂_mem_left {α β : Type} {R : α → β → Prop} {l₁ : List α} {l₂ : List β}
    (h : List.Forall₂ R l₁ l₂) : ∀ a ∈ l₁, ∃ b ∈ l₂, R a b := by
  induction h with
  | nil => intro a ha; cases ha
  | cons hr _ ih =>
    intro a ha
    rcases List.mem_cons.1 ha with rfl | ha
    · exact ⟨_, List.mem_cons_self _ _, hr⟩
    · rcases ih a ha with ⟨b, hb, hab⟩
      exact ⟨b, List.mem_cons_of_mem _ hb, hab⟩

theorem forall₂_comp {α β γ : Type} {R : α → β → Prop} {S : β → γ → Prop} :
    ∀ {l₁ : List α} {l₂ : List β} {l₃ : List γ}, List.Forall₂ R l₁ l₂ → List.Forall₂ S l₂ l₃ →
      List.Forall₂ (fun a c => ∃ b, R a b ∧ S b c) l₁ l₃ := by
  intro l₁ l₂ l₃ h₁
  induction h₁ generalizing l₃ with
  | nil => intro h₂; cases h₂; exact .nil
  | cons hr _ ih =>
    intro h₂
    cases h₂ with
    | cons hs ht => exact .cons ⟨_, hr, hs⟩ (ih ht)

theorem forall₂_map_eq {α β γ : Type} {R : α → β → Prop} {f : α → γ} {g : β → γ}
    (H : ∀ a b, R a b → g b = f a) :
    ∀ {l₁ : List α} {l₂ : List β}, List.Forall₂ R l₁ l₂ → l₂.map g = l₁.map f := by
  intro l₁ l₂ h
  induction h with
  | nil => rfl
  | cons hr _ ih => simpa [ih] using H _ _ hr

/-! ### Basic facts about the embedded operations -/

theorem wid_inj {ws : List Worker} (h : (ws.map Worker.wid).Nodup)
    {w₁ w₂ : Worker} (h₁ : w₁ ∈ ws) (h₂ : w₂ ∈ ws) (he : w₁.wid = w₂.wid) : w₁ = w₂ :=
  List.inj_on_of_nodup_map h h₁ h₂ he

theorem find?_id_eq {tasks : List Task} (hN : (tasks.map Task.id).Nodup)
    {t : Task} (ht : t ∈ tasks) : tasks.find? (fun u => u.id == t.id) = some t := by
  induction tasks with
  | nil => cases ht
  | cons h rest ih =>
    rw [List.map_cons, List.nodup_cons] at hN
    rcases List.mem_cons.1 ht with rfl | ht
    · simp [List.find?]
    · have hne : (h.id == t.id) = false := by
        refine beq_eq_false_iff_ne.2 fun he => hN.1 ?_
        rw [he]
        exact List.mem_map.2 ⟨t, ht, rfl⟩
      simp only [List.find?, hne]
      exact ih hN.2 ht

theorem isCompletedId_eq {tasks : List Task} (hN : (tasks.map Task.id).Nodup)
    {t : Task} (ht : t ∈ tasks) : isCompletedId tasks t.id = t.completed := by
  unfold isCompletedId
  rw [find?_id_eq hN ht]

theorem activeB_iff {ws : List Worker} {t : Task} :
    activeB ws t = true ↔ ∃ w ∈ ws, t.id ∈ w.currentTasks := by
  unfold activeB
  rw [List.any_eq_true]
  constructor
  · rintro ⟨w, hw, hc⟩; exact ⟨w, hw, List.elem_iff.1 hc⟩
  · rintro ⟨w, hw, hc⟩; exact ⟨w, hw, List.elem_iff.2 hc⟩

theorem pendingP_iff {t : Task} :
    pendingP t = true ↔ t.completed = false ∧ t.assigned.length < t.resources := by
  unfold pendingP
  cases h : t.completed <;> simp [h]

theorem eligibleP_iff {t : Task} {w : Worker} :
    eligibleP t w = true ↔ w.currentTasks.length < w.capacity ∧ w.wid ∉ t.assigned := by
  simp [eligibleP]

/-! ### The staffing phase, one task at a time -/

theorem staffTask_eq_pos {ws : List Worker} {t : Task}
    (h : t.resources - t.assigned.length ≤ (candidatesFor ws t).length) :
    staffTask ws t =
      ({ t with assigned := t.assigned ++
          ((candidatesFor ws t).take (t.resources - t.assigned.length)).map Worker.wid },
       ws.map fun w =>
         if (((candidatesFor ws t).take (t.resources - t.assigned.length)).map
             Worker.wid).contains w.wid then
           { w with currentTasks := w.currentTasks ++ [t.id] }
         else w) := by
  simp [staffTask, h]

theorem staffTask_eq_neg {ws : List Worker} {t : Task}
    (h : ¬ t.resources - t.assigned.length ≤ (candidatesFor ws t).length) :
    staffTask ws t = (t, ws) := by
  simp [staffTask, h]

theorem chosen_sublist (ws : List Worker) (t : Task) (n : Nat) :
    (((candidatesFor ws t).take n).map Worker.wid).Sublist (ws.map Worker.wid) :=
  (List.Sublist.map Worker.wid (List.take_sublist n _)).trans
    (List.Sublist.map Worker.wid (List.filter_sublist ws))

theorem mem_chosen_eligible {ws : List Worker} {t : Task} {n : Nat}
    (hwN : (ws.map Worker.wid).Nodup) {w : Worker} (hw : w ∈ ws)
    (hm : w.wid ∈ ((candidatesFor ws t).take n).map Worker.wid) :
    w.currentTasks.length < w.capacity ∧ w.wid ∉ t.assigned := by
  rcases List.mem_map.1 hm with ⟨c, hc, hcw⟩
  have hc' : c ∈ candidatesFor ws t := List.mem_of_mem_take hc
  have hcw' : c ∈ ws := List.mem_of_mem_filter hc'
  have hceq : c = w := wid_inj hwN hcw' hw hcw
  subst hceq
  exact eligibleP_iff.1 (List.mem_filter.1 hc').2

theorem staffTask_spec {ws : List Worker} {t : Task}
    (hp : pendingP t = true)
    (hwN : (ws.map Worker.wid).Nodup)
    (hcap : ∀ w ∈ ws, w.currentTasks.length ≤ w.capacity)
    (hcN : ∀ w ∈ ws, w.currentTasks.Nodup)
    (haon : t.assigned.length = 0 ∨ t.assigned.length = t.resources)
    (hs1 : ∀ w ∈ ws, t.id ∈ w.currentTasks → w.wid ∈ t.assigned ∧ t.completed = false) :
    List.Forall₂ (fun w w' => w'.wid = w.wid ∧ w'.capacity = w.capacity ∧
        (w'.currentTasks = w.currentTasks ∨ w'.currentTasks = w.currentTasks ++ [t.id]))
      ws (staffTask ws t).2 ∧
    ((staffTask ws t).1.id = t.id ∧ (staffTask ws t).1.duration = t.duration ∧
      (staffTask ws t).1.resources = t.resources ∧ (staffTask ws t).1.completed = t.completed) ∧
    (∃ ext, (staffTask ws t).1.assigned = t.assigned ++ ext) ∧
    (∀ w' ∈ (staffTask ws t).2, w'.currentTasks.length ≤ w'.capacity ∧ w'.currentTasks.Nodup) ∧
    ((staffTask ws t).1.assigned.length = 0 ∨
      (staffTask ws t).1.assigned.length = (staffTask ws t).1.resources) ∧
    (staffTask ws t).1.assigned.Sublist (ws.map Worker.wid) ∧
    (∀ w' ∈ (staffTask ws t).2,
      (t.id ∈ w'.currentTasks → w'.wid ∈ (staffTask ws t).1.assigned) ∧
      (w'.wid ∈ (staffTask ws t).1.assigned → t.id ∈ w'.currentTasks)) := by
  have hpend := pendingP_iff.1 hp
  have hA0 : t.assigned = [] := by
    rcases haon with h0 | hr
    · exact List.length_eq_zero.1 h0
    · exact absurd hr (by omega)
  by_cases hif : t.resources - t.assigned.length ≤ (candidatesFor ws t).length
  · rw [staffTask_eq_pos hif]
    set chosenIds :=
      ((candidatesFor ws t).take (t.resources - t.assigned.length)).map Worker.wid with hchosen
    have hclen : chosenIds.length = t.resources := by
      rw [hchosen, List.length_map, List.length_take, hA0]
      simp only [hA0, List.length_nil, Nat.sub_zero] at hif ⊢
      omega
    have hcsub : chosenIds.Sublist (ws.map Worker.wid) := chosen_sublist ws t _
    refine ⟨?_, ⟨rfl, rfl, rfl, rfl⟩, ⟨chosenIds, rfl⟩, ?_, ?_, ?_, ?_⟩
    · rw [List.forall₂_map_right_iff]
      refine List.forall₂_same.2 fun w hw => ?_
      by_cases hm : w.wid ∈ chosenIds
      · have hmb : chosenIds.contains w.wid = true := List.elem_iff.2 hm
        rw [if_pos hmb]
        exact ⟨rfl, rfl, Or.inr rfl⟩
      · have hmb : ¬ chosenIds.contains w.wid = true := fun hc => hm (List.elem_iff.1 hc)
        rw [if_neg hmb]
        exact ⟨rfl, rfl, Or.inl rfl⟩
    · intro w' hw'
      rcases List.mem_map.1 hw' with ⟨w, hw, rfl⟩
      by_cases hm : w.wid ∈ chosenIds
      · have hmb : chosenIds.contains w.wid = true := List.elem_iff.2 hm
        have helig := mem_chosen_eligible hwN hw hm
        have hnm : t.id ∉ w.currentTasks := fun hin => by
          have h2 := (hs1 w hw hin).1
          rw [hA0] at h2
          cases h2
        rw [if_pos hmb]
        constructor
        · show (w.currentTasks ++ [t.id]).length ≤ w.capacity
          rw [List.length_append]
          have := helig.1
          simp only [List.length_singleton]
          omega
        · show (w.currentTasks ++ [t.id]).Nodup
          simp [List.nodup_append, hcN w hw, hnm]
      · have hmb : ¬ chosenIds.contains w.wid = true := fun hc => hm (List.elem_iff.1 hc)
        rw [if_neg hmb]
        exact ⟨hcap w hw, hcN w hw⟩
    · right
      simp [hA0, hclen]
    · simpa [hA0] using hcsub
    · intro w' hw'
      rcases List.mem_map.1 hw' with ⟨w, hw, rfl⟩
      by_cases hm : w.wid ∈ chosenIds
      · have hmb : chosenIds.contains w.wid = true := List.elem_iff.2 hm
        rw [if_pos hmb]
        constructor
        · intro _
          show w.wid ∈ t.assigned ++ chosenIds
          exact List.mem_append.2 (Or.inr hm)
        · intro _
          show t.id ∈ w.currentTasks ++ [t.id]
          exact List.mem_append.2 (by simp)
      · have hmb : ¬ chosenIds.contains w.wid = true := fun hc => hm (List.elem_iff.1 hc)
        rw [if_neg hmb]
        constructor
        · intro hin
          have h2 := (hs1 w hw hin).1
          rw [hA0] at h2
          cases h2
        · intro hin
          rw [hA0, List.nil_append] at hin
          exact absurd hin hm
  · rw [staffTask_eq_neg hif]
    refine ⟨?_, ⟨rfl, rfl, rfl, rfl⟩, ⟨[], by simp⟩, fun w hw => ⟨hcap w hw, hcN w hw⟩,
      Or.inl (by simp [hA0]), by simp [hA0], fun w hw => ⟨fun hin => (hs1 w hw hin).1,
        fun hin => ?_⟩⟩
    · exact List.forall₂_same.2 fun w _ => ⟨rfl, rfl, Or.inl rfl⟩
    · rw [hA0] at hin; cases hin

theorem staffAll_cons_pos {ws : List Worker} {t : Task} {ts : List Task}
    (hp : pendingP t = true) :
    staffAll ws (t :: ts) =
      ((staffTask ws t).1 :: (staffAll (staffTask ws t).2 ts).1,
        (staffAll (staffTask ws t).2 ts).2) := by
  simp [staffAll, hp]

theorem staffAll_cons_neg {ws : List Worker} {t : Task} {ts : List Task}
    (hp : ¬ pendingP t = true) :
    staffAll ws (t :: ts) = (t :: (staffAll ws ts).1, (staffAll ws ts).2) := by
  simp [staffAll, hp]

theorem staffAll_spec : ∀ (ts : List Task) (ws : List Worker),
    (ws.map Worker.wid).Nodup →
    (ts.map Task.id).Nodup →
    (∀ w ∈ ws, w.currentTasks.length ≤ w.capacity) →
    (∀ w ∈ ws, w.currentTasks.Nodup) →
    (∀ t ∈ ts, t.assigned.length = 0 ∨ t.assigned.length = t.resources) →
    (∀ t ∈ ts, t.assigned.Sublist (ws.map Worker.wid)) →
    (∀ w ∈ ws, ∀ t ∈ ts, t.id ∈ w.currentTasks → w.wid ∈ t.assigned ∧ t.completed = false) →
    (∀ w ∈ ws, ∀ t ∈ ts, w.wid ∈ t.assigned → t.completed = false → t.id ∈ w.currentTasks) →
    List.Forall₂ (WStep ts) ws (staffAll ws ts).2 ∧
    List.Forall₂ TStep ts (staffAll ws ts).1 ∧
    (∀ w' ∈ (staffAll ws ts).2, w'.currentTasks.length ≤ w'.capacity ∧ w'.currentTasks.Nodup) ∧
    (∀ t' ∈ (staffAll ws ts).1, t'.assigned.length = 0 ∨ t'.assigned.length = t'.resources) ∧
    (∀ t' ∈ (staffAll ws ts).1, t'.assigned.Sublist (ws.map Worker.wid)) ∧
    (∀ w' ∈ (staffAll ws ts).2, ∀ t' ∈ (staffAll ws ts).1,
      (t'.id ∈ w'.currentTasks → w'.wid ∈ t'.assigned ∧ t'.completed = false) ∧
      (w'.wid ∈ t'.assigned → t'.completed = false → t'.id ∈ w'.currentTasks)) := by
  intro ts
  induction ts with
  | nil =>
    intro ws hwN htN hcap hcN haon haS hs1 hs2
    refine ⟨?_, .nil, fun w' hw' => ⟨hcap w' hw', hcN w' hw'⟩,
      fun t' ht' => absurd ht' (List.not_mem_nil t'), fun t' ht' => absurd ht' (List.not_mem_nil t'),
      fun w' _ t' ht' => absurd ht' (List.not_mem_nil t')⟩
    exact List.forall₂_same.2 fun w _ => ⟨rfl, rfl, [], (List.append_nil _).symm, by simp⟩
  | cons t rest ih =>
    intro ws hwN htN hcap hcN haon haS hs1 hs2
    rw [List.map_cons, List.nodup_cons] at htN
    by_cases hp : pendingP t = true
    · obtain ⟨A1, A2, A3, A4, A5, A6, A7⟩ :=
        staffTask_spec hp hwN hcap hcN (haon t (List.mem_cons_self t rest))
          (fun w hw => hs1 w hw t (List.mem_cons_self t rest))
      have hmapw : (staffTask ws t).2.map Worker.wid = ws.map Worker.wid :=
        forall₂_map_eq (fun a b h => h.1) A1
      have hcompleted : t.completed = false := (pendingP_iff.1 hp).1
      obtain ⟨B1, B2, B3, B4, B5, B6⟩ := ih (staffTask ws t).2 (by rw [hmapw]; exact hwN)
        htN.2 (fun w' hw' => (A4 w' hw').1) (fun w' hw' => (A4 w' hw').2)
        (fun u hu => haon u (List.mem_cons_of_mem t hu))
        (fun u hu => by rw [hmapw]; exact haS u (List.mem_cons_of_mem t hu))
        (fun w₁ hw₁ u hu hin => by
          obtain ⟨w, hw, hwid, hcp, hct⟩ := forall₂_mem_right A1 w₁ hw₁
          have hin' : u.id ∈ w.currentTasks := by
            rcases hct with hct | hct
            · rw [hct] at hin; exact hin
            · rw [hct] at hin
              rcases List.mem_append.1 hin with h | h
              · exact h
              · exfalso
                have : u.id = t.id := by simpa using h
                exact htN.1 (this ▸ List.mem_map.2 ⟨u, hu, rfl⟩)
          rw [hwid]
          exact hs1 w hw u (List.mem_cons_of_mem t hu) hin')
        (fun w₁ hw₁ u hu hin hcf => by
          obtain ⟨w, hw, hwid, hcp, hct⟩ := forall₂_mem_right A1 w₁ hw₁
          rw [hwid] at hin
          have hin' : u.id ∈ w.currentTasks :=
            hs2 w hw u (List.mem_cons_of_mem t hu) hin hcf
          rcases hct with hct | hct
          · rw [hct]; exact hin'
          · rw [hct]; exact List.mem_append.2 (Or.inl hin'))
      rw [staffAll_cons_pos hp]
      refine ⟨?_, ?_, B3, ?_, ?_, ?_⟩
      · refine (forall₂_comp A1 B1).imp fun w w₂ h => ?_
        obtain ⟨w₁, ⟨hwid, hcp, hct⟩, hwid₂, hcp₂, ext, hext, hsub⟩ := h
        refine ⟨hwid₂.trans hwid, hcp₂.trans hcp, ?_⟩
        rcases hct with hct | hct
        · exact ⟨ext, by rw [hext, hct], fun x hx =>
            List.mem_cons_of_mem _ (hsub x hx)⟩
        · refine ⟨t.id :: ext, ?_, ?_⟩
          · rw [hext, hct, List.append_assoc]
            rfl
          · intro x hx
            rcases List.mem_cons.1 hx with rfl | hx
            · exact List.mem_cons_self _ _
            · exact List.mem_cons_of_mem _ (hsub x hx)
      · refine List.Forall₂.cons ⟨A2.1, A2.2.1, A2.2.2.1, A2.2.2.2, A3, ?_⟩ B2
        intro hfalse
        rw [hfalse] at hp
        cases hp
      · intro t' ht'
        rcases List.mem_cons.1 ht' with rfl | ht'
        · exact A5
        · exact B4 t' ht'
      · intro t' ht'
        rcases List.mem_cons.1 ht' with rfl | ht'
        · exact A6
        · rw [← hmapw]
          exact B5 t' ht'
      · intro w₂ hw₂ t' ht'
        rcases List.mem_cons.1 ht' with rfl | ht'
        · obtain ⟨w₁, hw₁, hwid, hcp, ext, hct, hsub⟩ := forall₂_mem_right B1 w₂ hw₂
          constructor
          · intro hin
            rw [hct] at hin
            have hin' : (staffTask ws t).1.id ∈ w₁.currentTasks := by
              rcases List.mem_append.1 hin with h | h
              · exact h
              · exfalso
                have := hsub _ h
                rw [A2.1] at this
                exact htN.1 this
            rw [A2.1] at hin'
            refine ⟨?_, by rw [A2.2.2.2]; exact hcompleted⟩
            rw [hwid]
            exact (A7 w₁ hw₁).1 hin'
          · intro hin _
            rw [hwid] at hin
            have := (A7 w₁ hw₁).2 hin
            rw [hct, A2.1]
            exact List.mem_append.2 (Or.inl this)
        · exact B6 w₂ hw₂ t' ht'
    · obtain ⟨B1, B2, B3, B4, B5, B6⟩ := ih ws hwN htN.2 hcap hcN
        (fun u hu => haon u (List.mem_cons_of_mem t hu))
        (fun u hu => haS u (List.mem_cons_of_mem t hu))
        (fun w hw u hu => hs1 w hw u (List.mem_cons_of_mem t hu))
        (fun w hw u hu => hs2 w hw u (List.mem_cons_of_mem t hu))
      rw [staffAll_cons_neg hp]
      refine ⟨?_, ?_, B3, ?_, ?_, ?_⟩
      · exact B1.imp fun w w₂ h =>
          ⟨h.1, h.2.1, h.2.2.choose, h.2.2.choose_spec.1,
            fun x hx => List.mem_cons_of_mem _ (h.2.2.choose_spec.2 x hx)⟩
      · exact List.Forall₂.cons
          ⟨rfl, rfl, rfl, rfl, ⟨[], (List.append_nil _).symm⟩, fun _ => rfl⟩ B2
      · intro t' ht'
        rcases List.mem_cons.1 ht' with rfl | ht'
        · exact haon t' (List.mem_cons_self _ _)
        · exact B4 t' ht'
      · intro t' ht'
        rcases List.mem_cons.1 ht' with rfl | ht'
        · exact haS t' (List.mem_cons_self _ _)
        · exact B5 t' ht'
      · intro w₂ hw₂ t' ht'
        rcases List.mem_cons.1 ht' with rfl | ht'
        · obtain ⟨w, hw, hwid, hcp, ext, hct, hsub⟩ := forall₂_mem_right B1 w₂ hw₂
          constructor
          · intro hin
            rw [hct] at hin
            have hin' : t'.id ∈ w.currentTasks := by
              rcases List.mem_append.1 hin with h | h
              · exact h
              · exact absurd (hsub _ h) htN.1
            rw [hwid]
            exact hs1 w hw t' (List.mem_cons_self _ _) hin'
          · intro hin hcf
            rw [hwid] at hin
            have := hs2 w hw t' (List.mem_cons_self _ _) hin hcf
            rw [hct]
            exact List.mem_append.2 (Or.inl this)
        · exact B6 w₂ hw₂ t' ht'

/-! ### The inductive invariant of the scheduler -/

theorem Inv.tNodup {s : SchedState} (h : Inv s) : (s.tasks.map Task.id).Nodup :=
  h.idsSorted.imp Nat.ne_of_lt

theorem staffingPhase_inv {s : SchedState} (h : Inv s) : Inv (staffingPhase s) := by
  obtain ⟨M1, M2, M3, M4, M5, M6⟩ :=
    staffAll_spec s.tasks s.workers h.wNodup h.tNodup h.cap h.cNodup h.aon h.aSub h.sym1 h.sym2
  have hmapT : (staffAll s.workers s.tasks).1.map Task.id = s.tasks.map Task.id :=
    forall₂_map_eq (fun a b hr => hr.1) M2
  have hmapW : (staffAll s.workers s.tasks).2.map Worker.wid = s.workers.map Worker.wid :=
    forall₂_map_eq (fun a b hr => hr.1) M1
  refine ⟨?_, ?_, ?_, ?_, ?_, ?_, ?_, ?_, ?_, ?_, ?_⟩
  · show ((staffAll s.workers s.tasks).1.map Task.id).Pairwise _
    rw [hmapT]
    exact h.idsSorted
  · show ((staffAll s.workers s.tasks).2.map Worker.wid).Nodup
    rw [hmapW]
    exact h.wNodup
  · exact fun w' hw' => (M3 w' hw').1
  · exact fun w' hw' => (M3 w' hw').2
  · intro w' hw' tid htid
    obtain ⟨w, hw, hwid, hcp, ext, hct, hsub⟩ := forall₂_mem_right M1 w' hw'
    show tid ∈ (staffAll s.workers s.tasks).1.map Task.id
    rw [hmapT]
    rw [hct] at htid
    rcases List.mem_append.1 htid with hm | hm
    · exact h.cSub w hw tid hm
    · exact hsub tid hm
  · exact M4
  · intro t' ht'
    show t'.assigned.Sublist ((staffAll s.workers s.tasks).2.map Worker.wid)
    rw [hmapW]
    exact M5 t' ht'
  · exact fun w' hw' t' ht' => (M6 w' hw' t' ht').1
  · exact fun w' hw' t' ht' => (M6 w' hw' t' ht').2
  · intro t' ht'
    obtain ⟨t, ht, hid, hdur, hres, hcomp, _⟩ := forall₂_mem_right M2 t' ht'
    rw [hdur, hcomp]
    exact h.dur t ht
  · intro t' ht'
    obtain ⟨t, ht, hid, hdur, hres, hcomp, _⟩ := forall₂_mem_right M2 t' ht'
    rw [hres]
    exact h.res t ht

/-! ### The update and cleanup phases -/

theorem upd_id (ws : List Worker) (t : Task) :
    (if activeB ws t then advanceTask t else t).id = t.id := by
  by_cases h : activeB ws t = true <;> simp [h, advanceTask]

theorem upd_resources (ws : List Worker) (t : Task) :
    (if activeB ws t then advanceTask t else t).resources = t.resources := by
  by_cases h : activeB ws t = true <;> simp [h, advanceTask]

theorem upd_assigned (ws : List Worker) (t : Task) :
    (if activeB ws t then advanceTask t else t).assigned = t.assigned := by
  by_cases h : activeB ws t = true <;> simp [h, advanceTask]

theorem active_not_completed {m : SchedState} (h : Inv m) {t : Task}
    (ht : t ∈ m.tasks) (ha : activeB m.workers t = true) : t.completed = false := by
  obtain ⟨w, hw, hin⟩ := activeB_iff.1 ha
  exact (h.sym1 w hw t ht hin).2

theorem upd_dur {m : SchedState} (h : Inv m) {t : Task} (ht : t ∈ m.tasks) :
    ((if activeB m.workers t then advanceTask t else t).completed = true →
      (if activeB m.workers t then advanceTask t else t).duration = 0) ∧
    ((if activeB m.workers t then advanceTask t else t).completed = false →
      1 ≤ (if activeB m.workers t then advanceTask t else t).duration) := by
  by_cases ha : activeB m.workers t = true
  · have hcf := active_not_completed h ht ha
    have hd1 : 1 ≤ t.duration := (h.dur t ht).2 hcf
    rw [if_pos ha]
    show ((if t.duration - 1 ≤ 0 then true else t.completed) = true → t.duration - 1 = 0) ∧
      ((if t.duration - 1 ≤ 0 then true else t.completed) = false → 1 ≤ t.duration - 1)
    by_cases hz : t.duration - 1 ≤ 0
    · rw [if_pos hz]
      constructor
      · intro _
        omega
      · intro hfc
        cases hfc
    · rw [if_neg hz]
      refine ⟨fun hc => ?_, fun _ => by omega⟩
      rw [hcf] at hc
      cases hc
  · rw [if_neg ha]
    exact h.dur t ht

theorem cleanup_update_inv {m : SchedState} (h : Inv m) :
    Inv (cleanupPhase (updatePhase m)) := by
  have hmapT : (updatePhase m).tasks.map Task.id = m.tasks.map Task.id := by
    show ((m.tasks.map _).map Task.id) = _
    rw [List.map_map]
    exact List.map_congr_left fun t _ => upd_id m.workers t
  have htN₁ : ((updatePhase m).tasks.map Task.id).Nodup := by
    rw [hmapT]; exact h.tNodup
  have hmem₁ : ∀ t ∈ m.tasks,
      (if activeB m.workers t then advanceTask t else t) ∈ (updatePhase m).tasks :=
    fun t ht => List.mem_map.2 ⟨t, ht, rfl⟩
  refine ⟨?_, ?_, ?_, ?_, ?_, ?_, ?_, ?_, ?_, ?_, ?_⟩
  · show ((updatePhase m).tasks.map Task.id).Pairwise _
    rw [hmapT]
    exact h.idsSorted
  · show (((updatePhase m).workers.map _).map Worker.wid).Nodup
    rw [List.map_map]
    have : ∀ w ∈ (updatePhase m).workers, Worker.wid w = Worker.wid w := fun _ _ => rfl
    show (List.map _ (updatePhase m).workers).Nodup
    exact (List.map_congr_left fun w _ => rfl : List.map _ _ = List.map Worker.wid _) ▸ h.wNodup
  · intro w' hw'
    rcases List.mem_map.1 hw' with ⟨w, hw, rfl⟩
    show (w.currentTasks.filter _).length ≤ w.capacity
    exact (List.length_filter_le _ _).trans (h.cap w hw)
  · intro w' hw'
    rcases List.mem_map.1 hw' with ⟨w, hw, rfl⟩
    exact (h.cNodup w hw).filter _
  · intro w' hw' tid htid
    rcases List.mem_map.1 hw' with ⟨w, hw, rfl⟩
    have : tid ∈ w.currentTasks := List.mem_of_mem_filter htid
    show tid ∈ (updatePhase m).tasks.map Task.id
    rw [hmapT]
    exact h.cSub w hw tid this
  · intro t' ht'
    rcases List.mem_map.1 ht' with ⟨t, ht, rfl⟩
    rw [upd_assigned, upd_resources]
    exact h.aon t ht
  · intro t' ht'
    rcases List.mem_map.1 ht' with ⟨t, ht, rfl⟩
    rw [upd_assigned]
    show t.assigned.Sublist (((updatePhase m).workers.map _).map Worker.wid)
    rw [List.map_map]
    exact (List.map_congr_left fun w _ => rfl :
      List.map _ (updatePhase m).workers = List.map Worker.wid _) ▸ h.aSub t ht
  · intro w' hw' t' ht'
    rcases List.mem_map.1 hw' with ⟨w, hw, rfl⟩
    rcases List.mem_map.1 ht' with ⟨t, ht, rfl⟩
    intro htid
    have hf := List.mem_filter.1 htid
    have hcomp : isCompletedId (updatePhase m).tasks
        (if activeB m.workers t then advanceTask t else t).id = false := by
      have := hf.2
      simpa using this
    have hceq : isCompletedId (updatePhase m).tasks
        (if activeB m.workers t then advanceTask t else t).id =
        (if activeB m.workers t then advanceTask t else t).completed :=
      isCompletedId_eq htN₁ (hmem₁ t ht)
    have hin : t.id ∈ w.currentTasks := by
      have := hf.1
      rwa [upd_id] at this
    refine ⟨?_, by rw [← hceq, hcomp]⟩
    rw [upd_assigned]
    show w.wid ∈ t.assigned
    exact (h.sym1 w hw t ht hin).1
  · intro w' hw' t' ht'
    rcases List.mem_map.1 hw' with ⟨w, hw, rfl⟩
    rcases List.mem_map.1 ht' with ⟨t, ht, rfl⟩
    intro hwin hcf
    rw [upd_assigned] at hwin
    have hwin' : w.wid ∈ t.assigned := hwin
    have htc : t.completed = false := by
      by_cases ha : activeB m.workers t = true
      · exact active_not_completed h ht ha
      · rw [if_neg ha] at hcf
        exact hcf
    have hin : t.id ∈ w.currentTasks := h.sym2 w hw t ht hwin' htc
    show _ ∈ w.currentTasks.filter _
    refine List.mem_filter.2 ⟨by rw [upd_id]; exact hin, ?_⟩
    have hceq : isCompletedId (updatePhase m).tasks
        (if activeB m.workers t then advanceTask t else t).id =
        (if activeB m.workers t then advanceTask t else t).completed :=
      isCompletedId_eq htN₁ (hmem₁ t ht)
    rw [hceq, hcf]
    rfl
  · intro t' ht'
    rcases List.mem_map.1 ht' with ⟨t, ht, rfl⟩
    exact upd_dur h ht
  · intro t' ht'
    rcases List.mem_map.1 ht' with ⟨t, ht, rfl⟩
    rw [upd_resources]
    exact h.res t ht

theorem inv_step {s : SchedState} (h : Inv s) : Inv (step s) :=
  cleanup_update_inv (staffingPhase_inv h)

theorem init_inv {s : SchedState} (h : InitOK s) : Inv s := by
  refine ⟨h.idsSorted, h.widsNodup, ?_, ?_, ?_, ?_, ?_, ?_, ?_, ?_, ?_⟩
  · intro w hw
    rw [(h.freshWorker w hw).1]
    exact Nat.zero_le _
  · intro w hw
    rw [(h.freshWorker w hw).1]
    exact List.nodup_nil
  · intro w hw tid htid
    rw [(h.freshWorker w hw).1] at htid
    cases htid
  · intro t ht
    left
    rw [(h.freshTask t ht).1]
    rfl
  · intro t ht
    rw [(h.freshTask t ht).1]
    exact List.nil_sublist _
  · intro w hw t ht htid
    rw [(h.freshWorker w hw).1] at htid
    cases htid
  · intro w hw t ht hwin
    rw [(h.freshTask t ht).1] at hwin
    cases hwin
  · intro t ht
    obtain ⟨_, hc, hd, _, _, _⟩ := h.freshTask t ht
    constructor
    · intro hct
      rw [hc] at hct
      cases hct
    · intro _
      omega
  · intro t ht
    exact (h.freshTask t ht).2.2.2.2.1

theorem reachable_inv {s : SchedState} (h : Reachable s) : Inv s := by
  induction h with
  | init s hs => exact init_inv hs
  | next s _ ih => exact inv_step ih

/-! ### Further supporting lemmas -/

theorem task_eq {t₁ t₂ : Task} (hid : t₁.id = t₂.id) (hdur : t₁.duration = t₂.duration)
    (hres : t₁.resources = t₂.resources) (hass : t₁.assigned = t₂.assigned)
    (hcomp : t₁.completed = t₂.completed) : t₁ = t₂ := by
  cases t₁
  cases t₂
  simp_all

theorem forall₂_imp_mem {α β : Type} {R R' : α → β → Prop} :
    ∀ {l₁ : List α} {l₂ : List β}, List.Forall₂ R l₁ l₂ →
      (∀ a ∈ l₁, ∀ b ∈ l₂, R a b → R' a b) → List.Forall₂ R' l₁ l₂ := by
  intro l₁ l₂ h
  induction h with
  | nil => intro _; exact .nil
  | cons hr _ ih =>
    intro H
    refine .cons (H _ (List.mem_cons_self _ _) _ (List.mem_cons_self _ _) hr) (ih ?_)
    intro a ha b hb
    exact H a (List.mem_cons_of_mem _ ha) b (List.mem_cons_of_mem _ hb)

theorem step_tasks_eq (s : SchedState) :
    (step s).tasks = (updatePhase (staffingPhase s)).tasks := rfl

/-- Under the invariant, a task is in the reporting phase's active set exactly
when it is fully staffed and not completed. -/
theorem active_iff_staffed {m : SchedState} (h : Inv m) {t : Task} (ht : t ∈ m.tasks) :
    activeB m.workers t = true ↔ (t.completed = false ∧ t.assigned.length = t.resources) := by
  constructor
  · intro ha
    obtain ⟨w, hw, hin⟩ := activeB_iff.1 ha
    obtain ⟨hwid, hcf⟩ := h.sym1 w hw t ht hin
    refine ⟨hcf, ?_⟩
    rcases h.aon t ht with h0 | hr
    · exfalso
      rw [List.length_eq_zero.1 h0] at hwid
      cases hwid
    · exact hr
  · rintro ⟨hcf, hlen⟩
    have hres := h.res t ht
    have hpos : 0 < t.assigned.length := by omega
    obtain ⟨a, hamem⟩ := List.exists_mem_of_length_pos hpos
    have : a ∈ m.workers.map Worker.wid := (h.aSub t ht).subset hamem
    rcases List.mem_map.1 this with ⟨w, hw, rfl⟩
    exact activeB_iff.2 ⟨w, hw, h.sym2 w hw t ht hamem hcf⟩

/-- The pointwise relation between the tasks after staffing and the tasks
after the whole step: each task of the staffed state is mapped through the
update phase's conditional decrement, and the cleanup phase leaves tasks
unchanged. -/
theorem step_tasks_map (s : SchedState) :
    List.Forall₂ (fun t₁ t₂ => t₂ = (if activeB (staffingPhase s).workers t₁ then
        advanceTask t₁ else t₁) ∧ t₁ ∈ (staffingPhase s).tasks)
      (staffingPhase s).tasks (step s).tasks := by
  rw [step_tasks_eq]
  show List.Forall₂ _ _ ((staffingPhase s).tasks.map _)
  rw [List.forall₂_map_right_iff]
  exact List.forall₂_same.2 fun t ht => ⟨rfl, ht⟩

theorem pendingP_false_of_completed {t : Task} (h : t.completed = true) :
    pendingP t = false := by
  simp [pendingP, h]

/-- One step never touches a completed task's record. -/
theorem completed_frozen_step {s : SchedState} (h : Inv s) :
    List.Forall₂ (fun t t' => t.completed = true → t' = t) s.tasks (step s).tasks := by
  obtain ⟨M1, M2, M3, M4, M5, M6⟩ :=
    staffAll_spec s.tasks s.workers h.wNodup h.tNodup h.cap h.cNodup h.aon h.aSub h.sym1 h.sym2
  have hms : Inv (staffingPhase s) := staffingPhase_inv h
  have hcomp := forall₂_comp M2 (step_tasks_map s)
  refine hcomp.imp fun t t'' hr hc => ?_
  obtain ⟨t₁, hT, ht₂, ht₁mem⟩ := hr
  have ht₁ : t₁ = t := hT.2.2.2.2.2 (pendingP_false_of_completed hc)
  subst ht₁
  have hact : ¬ activeB (staffingPhase s).workers t₁ = true := by
    intro ha
    obtain ⟨w, hw, hin⟩ := activeB_iff.1 ha
    have := (hms.sym1 w hw t₁ ht₁mem hin).2
    rw [hc] at this
    cases this
  rw [ht₂, if_neg hact]

theorem reachable_stepN {s : SchedState} (h : Reachable s) :
    ∀ n, Reachable (stepN n s) := by
  intro n
  induction n generalizing s with
  | zero => exact h
  | succ n ih => exact ih (Reachable.next s h)

theorem completed_frozen_stepN {s : SchedState} (h : Reachable s) (n : Nat) :
    List.Forall₂ (fun t t' => t.completed = true → t' = t) s.tasks (stepN n s).tasks := by
  induction n generalizing s with
  | zero => exact List.forall₂_same.2 fun t _ _ => rfl
  | succ n ih =>
    have h1 := completed_frozen_step (reachable_inv h)
    have h2 := ih (Reachable.next s h)
    refine (forall₂_comp h1 h2).imp fun a c hr hc => ?_
    obtain ⟨b, hab, hbc⟩ := hr
    have hba : b = a := hab hc
    subst hba
    exact hbc hc

theorem candidates_nil_of_saturated {ws : List Worker} {t : Task}
    (hsat : ∀ w ∈ ws, w.capacity ≤ w.currentTasks.length) :
    candidatesFor ws t = [] := by
  rw [candidatesFor, List.filter_eq_nil_iff]
  intro w hw hel
  have := (eligibleP_iff.1 hel).1
  have := hsat w hw
  omega

/-- When every worker of the roster is saturated, the staffing phase is the
identity: no task finds any candidate. -/
theorem staffAll_saturated : ∀ (ts : List Task) (ws : List Worker),
    (∀ w ∈ ws, w.capacity ≤ w.currentTasks.length) →
    (∀ t ∈ ts, 1 ≤ t.resources ∧ (pendingP t = true → t.assigned.length = 0)) →
    staffAll ws ts = (ts, ws) := by
  intro ts
  induction ts with
  | nil => intro ws _ _; rfl
  | cons t rest ih =>
    intro ws hsat hts
    by_cases hp : pendingP t = true
    · rw [staffAll_cons_pos hp]
      have hst : staffTask ws t = (t, ws) := by
        apply staffTask_eq_neg
        rw [candidates_nil_of_saturated hsat]
        have h1 := (hts t (List.mem_cons_self t rest)).1
        have h2 := (hts t (List.mem_cons_self t rest)).2 hp
        simp only [List.length_nil]
        omega
      rw [hst]
      rw [ih ws hsat fun u hu => hts u (List.mem_cons_of_mem t hu)]
    · rw [staffAll_cons_neg hp]
      rw [ih ws hsat fun u hu => hts u (List.mem_cons_of_mem t hu)]

/-! ### Facts about the concrete configurations -/

theorem exampleState_init : InitOK exampleState :=
  ⟨by decide, by decide, by decide, by decide⟩

theorem soloState_init : InitOK soloState :=
  ⟨by decide, by decide, by decide, by decide⟩

/-! ### The claims -/

/-- C1: at every boundary between steps every worker holds at most
`capacity` tasks, and the staffing phase itself never pushes a worker
beyond its capacity (the bound already holds immediately after phase 1,
before update and cleanup run). -/
theorem spec_capacity_invariant {s : SchedState} (h : Reachable s) :
    (∀ w ∈ s.workers, w.currentTasks.length ≤ w.capacity) ∧
    (∀ w ∈ (staffingPhase s).workers, w.currentTasks.length ≤ w.capacity) :=
  ⟨(reachable_inv h).cap, (staffingPhase_inv (reachable_inv h)).cap⟩

theorem spec_capacity_invariant_witness :
    Reachable exampleState ∧
    ((∀ w ∈ exampleState.workers, w.currentTasks.length ≤ w.capacity) ∧
      (∀ w ∈ (staffingPhase exampleState).workers, w.currentTasks.length ≤ w.capacity)) :=
  have hr : Reachable exampleState := .init _ exampleState_init
  ⟨hr, spec_capacity_invariant hr⟩

/-- C2: at every boundary between steps each task's assigned list has length
0 or exactly `resources`, and consequently every task produced by the
pending-task computation has an empty assigned list. -/
theorem spec_all_or_nothing {s : SchedState} (h : Reachable s) :
    (∀ t ∈ s.tasks, t.assigned.length = 0 ∨ t.assigned.length = t.resources) ∧
    (∀ t ∈ pendingTasks s, t.assigned.length = 0) := by
  have hi := reachable_inv h
  refine ⟨hi.aon, fun t ht => ?_⟩
  have hmem := List.mem_of_mem_filter ht
  have hp := (List.mem_filter.1 ht).2
  have hlt := (pendingP_iff.1 hp).2
  rcases hi.aon t hmem with h0 | hr
  · exact h0
  · omega

theorem spec_all_or_nothing_witness :
    Reachable exampleState ∧
    ((∀ t ∈ exampleState.tasks, t.assigned.length = 0 ∨ t.assigned.length = t.resources) ∧
      (∀ t ∈ pendingTasks exampleState, t.assigned.length = 0)) :=
  have hr : Reachable exampleState := .init _ exampleState_init
  ⟨hr, spec_all_or_nothing hr⟩

/-- C3: within one step, a task that is fully staffed and not completed
after the staffing phase has its duration decremented by exactly 1
(independently of how many workers are assigned), and every other task's
duration is unchanged — no task is decremented twice. -/
theorem spec_single_decrement {s : SchedState} (h : Reachable s) :
    List.Forall₂ (fun t₁ t₂ =>
      (t₁.completed = false ∧ t₁.assigned.length = t₁.resources →
        t₂.duration = t₁.duration - 1) ∧
      (¬(t₁.completed = false ∧ t₁.assigned.length = t₁.resources) →
        t₂.duration = t₁.duration))
      (staffingPhase s).tasks (step s).tasks := by
  have hms : Inv (staffingPhase s) := staffingPhase_inv (reachable_inv h)
  refine (step_tasks_map s).imp ?_
  rintro t₁ t₂ ⟨rfl, ht₁⟩
  by_cases ha : activeB (staffingPhase s).workers t₁ = true
  · have hst := (active_iff_staffed hms ht₁).1 ha
    rw [if_pos ha]
    exact ⟨fun _ => rfl, fun hn => absurd hst hn⟩
  · rw [if_neg ha]
    refine ⟨fun hst => ?_, fun _ => rfl⟩
    exact absurd ((active_iff_staffed hms ht₁).2 hst) ha

theorem spec_single_decrement_witness :
    Reachable exampleState ∧
    List.Forall₂ (fun t₁ t₂ =>
      (t₁.completed = false ∧ t₁.assigned.length = t₁.resources →
        t₂.duration = t₁.duration - 1) ∧
      (¬(t₁.completed = false ∧ t₁.assigned.length = t₁.resources) →
        t₂.duration = t₁.duration))
      (staffingPhase exampleState).tasks (step exampleState).tasks :=
  have hr : Reachable exampleState := .init _ exampleState_init
  ⟨hr, spec_single_decrement hr⟩

/-- C4 counterexample: the cleanup phase of src/t2.py (lines 87-89) filters
only the workers' `current_tasks`; it never clears `task.assigned_agents`.
Running the one-task, one-worker configuration for 5 steps completes the
task, yet its assigned list is still non-empty at the boundary — refuting
the claimed symmetric removal. -/
theorem spec_cleanup_symmetric_cex :
    InitOK soloState ∧
    ∃ t ∈ (stepN 5 soloState).tasks, t.completed = true ∧ t.assigned ≠ [] := by
  exact ⟨soloState_init, by decide⟩

/-- C4 (amended): the cleanup phase removes every completed task from each
worker's current task list — after a step no worker's list references a
completed task — but it leaves the tasks' assigned-worker lists untouched
(the tasks component of the state is unchanged by cleanup), so a completed
task retains its staffing record. -/
theorem spec_cleanup_workers_only {s : SchedState} (h : Reachable s) :
    (∀ w ∈ (step s).workers, ∀ tid ∈ w.currentTasks,
      isCompletedId (step s).tasks tid = false) ∧
    (step s).tasks = (updatePhase (staffingPhase s)).tasks := by
  have hc : Inv (step s) := inv_step (reachable_inv h)
  refine ⟨?_, rfl⟩
  intro w hw tid htid
  have hmem := hc.cSub w hw tid htid
  rcases List.mem_map.1 hmem with ⟨t', ht', rfl⟩
  rw [isCompletedId_eq hc.tNodup ht']
  exact (hc.sym1 w hw t' ht' htid).2

theorem spec_cleanup_workers_only_witness :
    Reachable soloState ∧
    ((∀ w ∈ (step soloState).workers, ∀ tid ∈ w.currentTasks,
      isCompletedId (step soloState).tasks tid = false) ∧
    (step soloState).tasks = (updatePhase (staffingPhase soloState)).tasks) :=
  have hr : Reachable soloState := .init _ soloState_init
  ⟨hr, spec_cleanup_workers_only hr⟩

/-- C5: the spec-modelled `recordAssignment` fails with `CapacityViolation`
whenever some listed worker is already at (or beyond) capacity or is already
present in the task's assigned list; and on the worker lists actually chosen
by the staffing phase's candidate filter it never fails — it returns exactly
the inlined commit of src/t2.py, so the error is unreachable under the
scheduler's phase ordering. -/
theorem spec_record_assignment :
    (∀ (ws : List Worker) (t : Task) (chosen : List Nat),
      ((∃ w ∈ ws, w.wid ∈ chosen ∧ w.capacity ≤ w.currentTasks.length) ∨
        (∃ a ∈ chosen, a ∈ t.assigned)) →
      recordAssignment ws t chosen = .error .capacityViolation) ∧
    (∀ (ws : List Worker) (t : Task), (ws.map Worker.wid).Nodup →
      t.resources - t.assigned.length ≤ (candidatesFor ws t).length →
      recordAssignment ws t
          (((candidatesFor ws t).take (t.resources - t.assigned.length)).map Worker.wid) =
        .ok (staffTask ws t)) := by
  constructor
  · intro ws t chosen hbad
    rw [recordAssignment, if_pos]
    rw [Bool.or_eq_true]
    rcases hbad with ⟨w, hw, hmem, hcap⟩ | ⟨a, ha, hmem⟩
    · refine Or.inl (List.any_eq_true.2 ⟨w, hw, ?_⟩)
      rw [Bool.and_eq_true]
      exact ⟨List.elem_iff.2 hmem, by simpa using hcap⟩
    · refine Or.inr (List.any_eq_true.2 ⟨a, ha, ?_⟩)
      exact List.elem_iff.2 hmem
  · intro ws t hwN hle
    rw [recordAssignment, if_neg, staffTask_eq_pos hle]
    intro hcond
    rw [Bool.or_eq_true] at hcond
    rcases hcond with hc | hc
    · obtain ⟨w, hw, hc⟩ := List.any_eq_true.1 hc
      rw [Bool.and_eq_true] at hc
      obtain ⟨hc1, hc2⟩ := hc
      have hmem : w.wid ∈ ((candidatesFor ws t).take
          (t.resources - t.assigned.length)).map Worker.wid := List.elem_iff.1 hc1
      have := (mem_chosen_eligible hwN hw hmem).1
      have hge : w.capacity ≤ w.currentTasks.length := by simpa using hc2
      omega
    · obtain ⟨a, ha, hc⟩ := List.any_eq_true.1 hc
      rcases List.mem_map.1 ha with ⟨c, hcmem, rfl⟩
      have helig := eligibleP_iff.1
        (List.mem_filter.1 (List.mem_of_mem_take hcmem)).2
      exact helig.2 (List.elem_iff.1 hc)

theorem spec_record_assignment_witness :
    recordAssignment [⟨0, 1, [7]⟩] ⟨0, 5, 1, [], false⟩ [0] =
      .error .capacityViolation ∧
    recordAssignment [⟨0, 2, []⟩, ⟨1, 1, []⟩, ⟨2, 2, []⟩] ⟨0, 5, 1, [], false⟩ [0] =
      .ok (staffTask [⟨0, 2, []⟩, ⟨1, 1, []⟩, ⟨2, 2, []⟩] ⟨0, 5, 1, [], false⟩) :=
  ⟨spec_record_assignment.1 _ _ _ (Or.inl ⟨⟨0, 1, [7]⟩, by decide, by decide, by decide⟩),
    spec_record_assignment.2 _ _ (by decide) (by decide)⟩

/-- C6: the staffing phase is deterministic — `step` is a pure function of
the state, the pending tasks are visited in ascending task-id (creation)
order, the workers committed to any task form a subsequence of the roster
(they are taken in fixed roster order), and the roster itself is unchanged
by staffing. -/
theorem spec_deterministic_staffing {s : SchedState} (h : Reachable s) :
    ((pendingTasks s).map Task.id).Pairwise (fun a b => a < b) ∧
    (∀ t' ∈ (staffingPhase s).tasks, t'.assigned.Sublist (s.workers.map Worker.wid)) ∧
    (staffingPhase s).workers.map Worker.wid = s.workers.map Worker.wid := by
  have hi := reachable_inv h
  obtain ⟨M1, M2, M3, M4, M5, M6⟩ :=
    staffAll_spec s.tasks s.workers hi.wNodup hi.tNodup hi.cap hi.cNodup hi.aon hi.aSub
      hi.sym1 hi.sym2
  refine ⟨?_, M5, forall₂_map_eq (fun a b hr => hr.1) M1⟩
  have hsub : ((pendingTasks s).map Task.id).Sublist (s.tasks.map Task.id) :=
    List.Sublist.map Task.id (List.filter_sublist s.tasks)
  exact List.Pairwise.sublist hsub hi.idsSorted

theorem spec_deterministic_staffing_witness :
    Reachable exampleState ∧
    (((pendingTasks exampleState).map Task.id).Pairwise (fun a b => a < b) ∧
      (∀ t' ∈ (staffingPhase exampleState).tasks,
        t'.assigned.Sublist (exampleState.workers.map Worker.wid)) ∧
      (staffingPhase exampleState).workers.map Worker.wid =
        exampleState.workers.map Worker.wid) :=
  have hr : Reachable exampleState := .init _ exampleState_init
  ⟨hr, spec_deterministic_staffing hr⟩

/-- C7 counterexample: on the spec's end-to-end configuration, step 1 of
src/t2.py does NOT assign worker C (id 2) to task id1 and does NOT assign
worker B (id 1) to task id2.  When id1 is staffed, B is still free, so the
first two candidates in roster order are A and B; id2 then only finds C.
This refutes the claimed step-1 assignments id1→{A,C}, id2→B. -/
theorem spec_example_step1_cex :
    InitOK exampleState ∧
    (∃ t ∈ (step exampleState).tasks, t.id = 1 ∧ (2 : Nat) ∉ t.assigned) ∧
    (∃ t ∈ (step exampleState).tasks, t.id = 2 ∧ (1 : Nat) ∉ t.assigned) := by
  exact ⟨exampleState_init, by decide, by decide⟩

/-- C7 (amended): on the spec's end-to-end configuration, step 1 assigns
id0→A, id1→{A,B}, id2→C; after step 1 the durations are 4, 5, 4; after 5
steps id0 and id2 are completed with duration 0 and retired from every
worker's list while id1 has duration 1; id1 completes at step 6. -/
theorem spec_example_run :
    ((step exampleState).tasks.map fun t => (t.id, t.assigned, t.duration, t.completed)) =
      [(0, [0], 4, false), (1, [0, 1], 5, false), (2, [2], 4, false)] ∧
    ((stepN 5 exampleState).tasks.map fun t => (t.id, t.duration, t.completed)) =
      [(0, 0, true), (1, 1, false), (2, 0, true)] ∧
    (∀ w ∈ (stepN 5 exampleState).workers,
      (0 : Nat) ∉ w.currentTasks ∧ (2 : Nat) ∉ w.currentTasks) ∧
    ((stepN 6 exampleState).tasks.map fun t => (t.id, t.duration, t.completed)) =
      [(0, 0, true), (1, 0, true), (2, 0, true)] := by
  exact ⟨by decide, by decide, by decide, by decide⟩

/-- C8: a pending task that the staffing phase leaves unstaffed (its
assigned list is still empty after the step) passes through the step with
its whole record unchanged — no partial assignment, no duration change; in
particular, when every worker of the roster is saturated, every unassigned
task is untouched by the step. -/
theorem spec_unstaffed_untouched {s : SchedState} (h : Reachable s) :
    List.Forall₂ (fun t t' => t'.assigned = [] → t.completed = false → t' = t)
      s.tasks (step s).tasks ∧
    ((∀ w ∈ s.workers, w.capacity ≤ w.currentTasks.length) →
      List.Forall₂ (fun t t' => t.assigned = [] → t.completed = false → t' = t)
        s.tasks (step s).tasks) := by
  have hi := reachable_inv h
  have hms := staffingPhase_inv hi
  obtain ⟨M1, M2, M3, M4, M5, M6⟩ :=
    staffAll_spec s.tasks s.workers hi.wNodup hi.tNodup hi.cap hi.cNodup hi.aon hi.aSub
      hi.sym1 hi.sym2
  constructor
  · refine (forall₂_comp M2 (step_tasks_map s)).imp ?_
    rintro t t'' ⟨t₁, hT, ht₂, ht₁mem⟩ hassign hcf
    have hassign₁ : t₁.assigned = [] := by
      have heq : t''.assigned = t₁.assigned := by rw [ht₂, upd_assigned]
      rw [← heq]
      exact hassign
    obtain ⟨hid, hdur, hres, hcompl, ⟨ext, hext⟩, _⟩ := hT
    rw [hassign₁] at hext
    have hta := List.append_eq_nil.1 hext.symm
    have ht₁t : t₁ = t := task_eq hid hdur hres (by rw [hassign₁, hta.1]) hcompl
    subst ht₁t
    have hact : ¬ activeB (staffingPhase s).workers t₁ = true := by
      intro ha
      obtain ⟨w, hw, hin⟩ := activeB_iff.1 ha
      have hmem := (hms.sym1 w hw t₁ ht₁mem hin).1
      rw [hassign₁] at hmem
      cases hmem
    rw [ht₂, if_neg hact]
  · intro hsat
    have hfix : staffAll s.workers s.tasks = (s.tasks, s.workers) := by
      refine staffAll_saturated s.tasks s.workers hsat fun t ht => ⟨hi.res t ht, fun hp => ?_⟩
      have hlt := (pendingP_iff.1 hp).2
      rcases hi.aon t ht with h0 | hr
      · exact h0
      · omega
    have hsps : staffingPhase s = s := by
      show ({ tasks := (staffAll s.workers s.tasks).1,
              workers := (staffAll s.workers s.tasks).2 } : SchedState) = s
      rw [hfix]
    have hstep := step_tasks_map s
    rw [hsps] at hstep
    refine hstep.imp ?_
    rintro t t' ⟨rfl, htmem⟩ hass hcf
    have hact : ¬ activeB s.workers t = true := by
      intro ha
      obtain ⟨w, hw, hin⟩ := activeB_iff.1 ha
      have hmem := (hi.sym1 w hw t htmem hin).1
      rw [hass] at hmem
      cases hmem
    rw [if_neg hact]

theorem spec_unstaffed_untouched_witness :
    Reachable exampleState ∧
    (List.Forall₂ (fun t t' => t'.assigned = [] → t.completed = false → t' = t)
      exampleState.tasks (step exampleState).tasks ∧
    ((∀ w ∈ exampleState.workers, w.capacity ≤ w.currentTasks.length) →
      List.Forall₂ (fun t t' => t.assigned = [] → t.completed = false → t' = t)
        exampleState.tasks (step exampleState).tasks)) :=
  have hr : Reachable exampleState := .init _ exampleState_init
  ⟨hr, spec_unstaffed_untouched hr⟩

/-- C9: completion is terminal — at a boundary a completed task is in no
worker's current list, and after any number of further steps its whole
record (assigned list, duration, completed flag) is exactly as it was and
it is still in no worker's current list. -/
theorem spec_completion_terminal {s : SchedState} (h : Reachable s) (n : Nat) :
    (∀ t ∈ s.tasks, t.completed = true → ∀ w ∈ s.workers, t.id ∉ w.currentTasks) ∧
    List.Forall₂ (fun t t' => t.completed = true →
      t' = t ∧ ∀ w ∈ (stepN n s).workers, t'.id ∉ w.currentTasks)
      s.tasks (stepN n s).tasks := by
  have hi := reachable_inv h
  have hiN := reachable_inv (reachable_stepN h n)
  constructor
  · intro t ht hc w hw hin
    have hfalse := (hi.sym1 w hw t ht hin).2
    rw [hc] at hfalse
    cases hfalse
  · refine forall₂_imp_mem (completed_frozen_stepN h n) ?_
    intro t ht t' ht' hR hc
    have ht'eq : t' = t := hR hc
    refine ⟨ht'eq, fun w hw hin => ?_⟩
    have hfalse := (hiN.sym1 w hw t' ht' hin).2
    rw [ht'eq, hc] at hfalse
    cases hfalse

theorem spec_completion_terminal_witness :
    Reachable exampleState ∧
    ((∀ t ∈ exampleState.tasks, t.completed = true →
        ∀ w ∈ exampleState.workers, t.id ∉ w.currentTasks) ∧
      List.Forall₂ (fun t t' => t.completed = true →
        t' = t ∧ ∀ w ∈ (stepN 3 exampleState).workers, t'.id ∉ w.currentTasks)
        exampleState.tasks (stepN 3 exampleState).tasks) :=
  have hr : Reachable exampleState := .init _ exampleState_init
  ⟨hr, spec_completion_terminal hr 3⟩

/-- C10: at every boundary between steps every task's remaining duration is
non-negative; a completed task's duration is exactly 0 and a non-completed
task's duration is at least 1 (so a task is marked completed the moment its
duration reaches 0 and is never decremented afterwards). -/
theorem spec_duration_nonneg {s : SchedState} (h : Reachable s) :
    ∀ t ∈ s.tasks, 0 ≤ t.duration ∧ (t.completed = true → t.duration = 0) ∧
      (t.completed = false → 1 ≤ t.duration) := by
  have hi := reachable_inv h
  intro t ht
  have hd := hi.dur t ht
  refine ⟨?_, hd.1, hd.2⟩
  cases hc : t.completed
  · have := hd.2 hc
    omega
  · have := hd.1 hc
    omega

theorem spec_duration_nonneg_witness :
    Reachable exampleState ∧
    ∀ t ∈ exampleState.tasks, 0 ≤ t.duration ∧ (t.completed = true → t.duration = 0) ∧
      (t.completed = false → 1 ≤ t.duration) :=
  have hr : Reachable exampleState := .init _ exampleState_init
  ⟨hr, spec_duration_nonneg hr⟩

end Coop
